import Mathlib

/-!
Verification of the content-analysis pipeline in src/srv/summarize.go of the
bookmark-manager repository.

Go strings are modelled as List Char; on the ASCII inputs exercised here the
Go byte positions coincide with character positions.  The Go regexp
operations are modelled by specialised scanners that follow the
leftmost-first, greedy backtracking semantics of the Go regexp package for
the concrete patterns appearing in the source.  The iteration order of Go
maps is not specified, so functions that iterate a map take the iteration
order as an explicit list parameter and results are quantified over it.
-/

namespace Summarize

open scoped List

/-- ASCII apostrophe, written via its code point. -/
def squote : Char := Char.ofNat 39

/-- Whitespace predicate of unicode.IsSpace, as used by strings.TrimSpace. -/
def goIsSpace (c : Char) : Bool :=
  c == ' ' || c == '\t' || c == '\n' || c.toNat == 11 || c.toNat == 12 || c == '\r' ||
  c.toNat == 133 || c.toNat == 160 || c.toNat == 5760 ||
  (8192 ≤ c.toNat && c.toNat ≤ 8202) || c.toNat == 8232 || c.toNat == 8233 ||
  c.toNat == 8239 || c.toNat == 8287 || c.toNat == 12288

/-- Drop matching characters from the right end of a list. -/
def rstrip (p : Char → Bool) (l : List Char) : List Char :=
  (l.reverse.dropWhile p).reverse

/-- Model of strings.TrimSpace. -/
def trimSpace (l : List Char) : List Char :=
  rstrip goIsSpace (l.dropWhile goIsSpace)

theorem subIn {l₁ l₂ : List Char} (h : l₁ <+: l₂) : l₁ <:+: l₂ := by
  obtain ⟨t, ht⟩ := h
  exact ⟨[], t, by simpa using ht⟩

theorem sufIn {l₁ l₂ : List Char} (h : l₁ <:+ l₂) : l₁ <:+: l₂ := by
  obtain ⟨s, hs⟩ := h
  exact ⟨s, [], by simpa using hs⟩

theorem inTrans {l₁ l₂ l₃ : List Char} (h₁ : l₁ <:+: l₂) (h₂ : l₂ <:+: l₃) : l₁ <:+: l₃ := by
  obtain ⟨s, t, rfl⟩ := h₁
  obtain ⟨u, v, rfl⟩ := h₂
  exact ⟨u ++ s, t ++ v, by simp⟩

theorem inTail {l₁ l₂ : List Char} {a : Char} (h : l₁ <:+: l₂) : l₁ <:+: a :: l₂ := by
  obtain ⟨s, t, rfl⟩ := h
  exact ⟨a :: s, t, rfl⟩

theorem inConsCases {l₁ l₂ : List Char} {a : Char} (h : l₁ <:+: a :: l₂) :
    l₁ <+: a :: l₂ ∨ l₁ <:+: l₂ := by
  obtain ⟨s, t, hs⟩ := h
  cases s with
  | nil => exact Or.inl ⟨t, by simpa using hs⟩
  | cons x s =>
    have h2 : x :: (s ++ l₁ ++ t) = a :: l₂ := by simpa using hs
    exact Or.inr ⟨s, t, (List.cons_eq_cons.mp h2).2⟩

theorem preConsCases {q l : List Char} {c : Char} (h : q <+: c :: l) :
    q = [] ∨ ∃ q2, q = c :: q2 ∧ q2 <+: l := by
  obtain ⟨t2, ht⟩ := h
  cases q with
  | nil => exact Or.inl rfl
  | cons x q2 =>
    have h2 : x :: (q2 ++ t2) = c :: l := by simpa using ht
    have h3 := List.cons_eq_cons.mp h2
    exact Or.inr ⟨q2, by rw [h3.1], ⟨t2, h3.2⟩⟩

theorem inSub {l₁ l₂ : List Char} (h : l₁ <:+: l₂) : ∀ a ∈ l₁, a ∈ l₂ := by
  obtain ⟨s, t, rfl⟩ := h
  intro a ha
  simp [ha]

theorem preNil {q : List Char} (h : q <+: ([] : List Char)) : q = [] := by
  obtain ⟨t2, ht⟩ := h
  have hl := congrArg List.length ht
  simp only [List.length_append, List.length_nil] at hl
  exact List.eq_nil_of_length_eq_zero (by omega)

theorem inNil {q : List Char} (h : q <:+: ([] : List Char)) : q = [] := by
  obtain ⟨u, v, huv⟩ := h
  have hl := congrArg List.length huv
  simp only [List.length_append, List.length_nil] at hl
  exact List.eq_nil_of_length_eq_zero (by omega)

theorem preConsMk {q l : List Char} {c : Char} (h : q <+: l) : c :: q <+: c :: l := by
  obtain ⟨t2, ht⟩ := h
  exact ⟨t2, by simp [ht]⟩

theorem takePre (n : Nat) (l : List Char) : l.take n <+: l := ⟨l.drop n, by simp⟩

theorem dropSuf (n : Nat) (l : List Char) : l.drop n <:+ l := ⟨l.take n, by simp⟩

theorem takeWhilePre (p : Char → Bool) (l : List Char) : l.takeWhile p <+: l :=
  ⟨l.dropWhile p, by simp⟩

theorem dropWhileSuf (p : Char → Bool) (l : List Char) : l.dropWhile p <:+ l :=
  ⟨l.takeWhile p, by simp⟩

theorem rstripPre (p : Char → Bool) (l : List Char) : rstrip p l <+: l := by
  obtain ⟨t, ht⟩ := dropWhileSuf p l.reverse
  refine ⟨t.reverse, ?_⟩
  have hrev : (t ++ l.reverse.dropWhile p).reverse = l := by rw [ht]; simp
  simpa [rstrip] using hrev

theorem trimSpaceIn (l : List Char) : trimSpace l <:+: l :=
  inTrans (subIn (rstripPre goIsSpace (l.dropWhile goIsSpace)))
    (sufIn (dropWhileSuf goIsSpace l))

/-- Worker for replaceAll.  The Nat argument skips characters already
consumed by a replaced occurrence, keeping the recursion structural. -/
def raGo (p r : List Char) : Nat → List Char → List Char
  | 0, [] => []
  | 0, c :: t =>
    if p.isPrefixOf (c :: t) then r ++ raGo p r (p.length - 1) t else c :: raGo p r 0 t
  | _ + 1, [] => []
  | k + 1, _ :: t => raGo p r k t

/-- Model of strings.ReplaceAll: replace every non-overlapping occurrence of
p in s by r, scanning left to right (the source never calls it with an
empty pattern). -/
def replaceAll (p r s : List Char) : List Char := raGo p r 0 s

theorem raGo_skip (p r : List Char) :
    ∀ (s : List Char) (k : Nat), raGo p r k s = raGo p r 0 (s.drop k) := by
  intro s
  induction s with
  | nil => intro k; cases k <;> rfl
  | cons c t ih =>
    intro k
    cases k with
    | zero => rfl
    | succ m => simpa [raGo] using ih m

theorem replaceAll_pos {p : List Char} (r : List Char) {c : Char} {t : List Char}
    (hp : p ≠ []) (h : p <+: c :: t) :
    replaceAll p r (c :: t) = r ++ replaceAll p r ((c :: t).drop p.length) := by
  cases p with
  | nil => exact absurd rfl hp
  | cons a ps =>
    have hb : (a :: ps).isPrefixOf (c :: t) = true := List.isPrefixOf_iff_prefix.mpr h
    show raGo (a :: ps) r 0 (c :: t) = _
    rw [raGo, if_pos hb]
    rw [show (a :: ps).length - 1 = ps.length from rfl, raGo_skip]
    simp [replaceAll]

theorem replaceAll_neg {p : List Char} (r : List Char) {c : Char} {t : List Char}
    (h : ¬ (p <+: c :: t)) :
    replaceAll p r (c :: t) = c :: replaceAll p r t := by
  have hb : p.isPrefixOf (c :: t) = false := by
    cases hx : p.isPrefixOf (c :: t) with
    | false => rfl
    | true => exact absurd ( List.isPrefixOf_iff_prefix.mp hx) h
  show raGo p r 0 (c :: t) = _
  rw [raGo, if_neg (by simp [hb])]
  rfl

theorem replaceAll_absent {p s : List Char} (r : List Char) (h : ¬ (p <:+: s)) :
    replaceAll p r s = s := by
  induction s with
  | nil => rfl
  | cons c t ih =>
    have hnp : ¬ (p <+: c :: t) := fun hx => h (subIn hx)
    rw [replaceAll_neg r hnp, ih (fun hi => h (inTail hi))]

theorem replaceAll_head_keep {p : List Char} {c₀ : Char} (hp : p ≠ []) :
    ∀ (s q : List Char), q ≠ [] → c₀ ∉ q → ¬ (q <+: s) → ¬ (q <+: replaceAll p [c₀] s) := by
  intro s
  induction s with
  | nil =>
    intro q hq _ _ hcon
    rw [show replaceAll p [c₀] [] = [] from rfl] at hcon
    exact hq (preNil hcon)
  | cons c t ih =>
    intro q hq hc hqs hcon
    by_cases hpre : p <+: c :: t
    · rw [replaceAll_pos [c₀] hp hpre] at hcon
      have hcon2 : q <+: c₀ :: replaceAll p [c₀] ((c :: t).drop p.length) := by
        simpa using hcon
      rcases preConsCases hcon2 with rfl | ⟨q2, rfl, _⟩
      · exact hq rfl
      · exact hc (by simp)
    · rw [replaceAll_neg [c₀] hpre] at hcon
      rcases preConsCases hcon with rfl | ⟨q2, rfl, hq2⟩
      · exact hq rfl
      · cases q2 with
        | nil => exact hqs ⟨t, rfl⟩
        | cons y ys =>
          have hc2 : c₀ ∉ y :: ys := fun hm => hc (by simp [hm])
          have hnq2 : ¬ ((y :: ys) <+: t) := fun hx => hqs (preConsMk hx)
          exact ih (y :: ys) (by simp) hc2 hnq2 hq2

theorem replaceAll_no_new_aux {p : List Char} {c₀ : Char} (hp : p ≠ []) :
    ∀ (n : Nat) (s q : List Char), s.length ≤ n → q ≠ [] → c₀ ∉ q →
      ¬ (q <:+: s) → ¬ (q <:+: replaceAll p [c₀] s) := by
  intro n
  induction n with
  | zero =>
    intro s q hlen hq _ _ hcon
    have hs : s = [] := List.eq_nil_of_length_eq_zero (Nat.le_zero.mp hlen)
    subst hs
    rw [show replaceAll p [c₀] [] = [] from rfl] at hcon
    exact hq (inNil hcon)
  | succ m ih =>
    intro s q hlen hq hc hqs hcon
    cases s with
    | nil =>
      rw [show replaceAll p [c₀] [] = [] from rfl] at hcon
      exact hq (inNil hcon)
    | cons c t =>
      by_cases hpre : p <+: c :: t
      · rw [replaceAll_pos [c₀] hp hpre] at hcon
        have hcon2 : q <:+: c₀ :: replaceAll p [c₀] ((c :: t).drop p.length) := by
          simpa using hcon
        rcases inConsCases hcon2 with hl | hr
        · rcases preConsCases hl with rfl | ⟨q2, rfl, _⟩
          · exact hq rfl
          · exact hc (by simp)
        · have hplen : 1 ≤ p.length := by
            cases p with
            | nil => exact absurd rfl hp
            | cons a ps => simp
          have hlen2 : ((c :: t).drop p.length).length ≤ m := by
            rw [List.length_drop]
            simp only [List.length_cons] at hlen ⊢
            omega
          have habs : ¬ (q <:+: (c :: t).drop p.length) := fun hx =>
            hqs (inTrans hx (sufIn (dropSuf p.length (c :: t))))
          exact ih ((c :: t).drop p.length) q hlen2 hq hc habs hr
      · rw [replaceAll_neg [c₀] hpre] at hcon
        rcases inConsCases hcon with hl | hr
        · rcases preConsCases hl with rfl | ⟨q2, rfl, hq2⟩
          · exact hq rfl
          · cases q2 with
            | nil => exact hqs (subIn ⟨t, rfl⟩)
            | cons y ys =>
              have hc2 : c₀ ∉ y :: ys := fun hm => hc (by simp [hm])
              have hnq2 : ¬ ((y :: ys) <+: t) := fun hx =>
                hqs (subIn (preConsMk hx))
              exact (replaceAll_head_keep hp t (y :: ys) (by simp) hc2 hnq2) hq2
        · exact ih t q (by simp only [List.length_cons] at hlen; omega) hq hc
            (fun hx => hqs (inTail hx)) hr

theorem replaceAll_removes_aux {p : List Char} {c₀ : Char} (hp : p ≠ []) (hc : c₀ ∉ p) :
    ∀ (n : Nat) (s : List Char), s.length ≤ n → ¬ (p <:+: replaceAll p [c₀] s) := by
  intro n
  induction n with
  | zero =>
    intro s hlen hcon
    have hs : s = [] := List.eq_nil_of_length_eq_zero (Nat.le_zero.mp hlen)
    subst hs
    rw [show replaceAll p [c₀] [] = [] from rfl] at hcon
    exact hp (inNil hcon)
  | succ m ih =>
    intro s hlen hcon
    cases s with
    | nil =>
      rw [show replaceAll p [c₀] [] = [] from rfl] at hcon
      exact hp (inNil hcon)
    | cons c t =>
      by_cases hpre : p <+: c :: t
      · rw [replaceAll_pos [c₀] hp hpre] at hcon
        have hcon2 : p <:+: c₀ :: replaceAll p [c₀] ((c :: t).drop p.length) := by
          simpa using hcon
        rcases inConsCases hcon2 with hl | hr
        · rcases preConsCases hl with rfl | ⟨q2, hq2, _⟩
          · exact hp rfl
          · exact hc (by rw [hq2]; simp)
        · have hplen : 1 ≤ p.length := by
            cases p with
            | nil => exact absurd rfl hp
            | cons a ps => simp
          have hlen2 : ((c :: t).drop p.length).length ≤ m := by
            rw [List.length_drop]
            simp only [List.length_cons] at hlen ⊢
            omega
          exact ih ((c :: t).drop p.length) hlen2 hr
      · rw [replaceAll_neg [c₀] hpre] at hcon
        rcases inConsCases hcon with hl | hr
        · have hkeep := replaceAll_head_keep hp (c :: t) p hp hc hpre
          rw [replaceAll_neg [c₀] hpre] at hkeep
          exact hkeep hl
        · exact ih t (by simp only [List.length_cons] at hlen; omega) hr

theorem replaceAll_keeps_absent {p q : List Char} {c₀ : Char}
    (hp : p ≠ []) (hq : q ≠ []) (hc : c₀ ∉ q) (s : List Char) (h : ¬ (q <:+: s)) :
    ¬ (q <:+: replaceAll p [c₀] s) :=
  replaceAll_no_new_aux hp s.length s q le_rfl hq hc h

theorem replaceAll_gone {p : List Char} {c₀ : Char}
    (hp : p ≠ []) (hc : c₀ ∉ p) (s : List Char) :
    ¬ (p <:+: replaceAll p [c₀] s) :=
  replaceAll_removes_aux hp hc s.length s le_rfl

def nbspP : List Char := "&nbsp;".toList

def ampP : List Char := "&amp;".toList

def ltP : List Char := "&lt;".toList

def gtP : List Char := "&gt;".toList

def quotP : List Char := "&quot;".toList

def numP : List Char := "&#39;".toList

/-- The entity-decoding step inside extractText, lines 112-118 of
src/srv/summarize.go: six sequential strings.ReplaceAll calls, in source
order nbsp, amp, lt, gt, quot, &#39. -/
def entityDecode (l : List Char) : List Char :=
  replaceAll numP [squote]
    (replaceAll quotP ['"']
      (replaceAll gtP ['>']
        (replaceAll ltP ['<']
          (replaceAll ampP ['&']
            (replaceAll nbspP [' '] l)))))

theorem entityDecode_fixed {y : List Char}
    (h1 : ¬ (nbspP <:+: y)) (h2 : ¬ (ampP <:+: y)) (h3 : ¬ (ltP <:+: y))
    (h4 : ¬ (gtP <:+: y)) (h5 : ¬ (quotP <:+: y)) (h6 : ¬ (numP <:+: y)) :
    entityDecode y = y := by
  unfold entityDecode
  rw [replaceAll_absent _ h1, replaceAll_absent _ h2, replaceAll_absent _ h3,
    replaceAll_absent _ h4, replaceAll_absent _ h5, replaceAll_absent _ h6]

/-- C6 (amended): the entity-decoding step of extractText is idempotent on
every input that does not contain the substring "&amp;"; in general it is
not idempotent, because the amp substitution runs before the lt, gt, quot
and numeric substitutions but after nbsp, so resolving "&amp;" can create a
new entity that survives the pass and is decoded by a second pass. -/
theorem C6_amended {x : List Char} (h : ¬ (ampP <:+: x)) :
    entityDecode (entityDecode x) = entityDecode x := by
  have a1 : ¬ (ampP <:+: replaceAll nbspP [' '] x) :=
    replaceAll_keeps_absent (by decide) (by decide) (by decide) x h
  have n1 : ¬ (nbspP <:+: replaceAll nbspP [' '] x) :=
    replaceAll_gone (by decide) (by decide) x
  generalize hu : replaceAll nbspP [' '] x = u at a1 n1
  have e2 : replaceAll ampP ['&'] u = u := replaceAll_absent _ a1
  have l3 : ¬ (ltP <:+: replaceAll ltP ['<'] u) :=
    replaceAll_gone (by decide) (by decide) u
  have a3 : ¬ (ampP <:+: replaceAll ltP ['<'] u) :=
    replaceAll_keeps_absent (by decide) (by decide) (by decide) u a1
  have n3 : ¬ (nbspP <:+: replaceAll ltP ['<'] u) :=
    replaceAll_keeps_absent (by decide) (by decide) (by decide) u n1
  generalize hv : replaceAll ltP ['<'] u = v at l3 a3 n3
  have g4 : ¬ (gtP <:+: replaceAll gtP ['>'] v) :=
    replaceAll_gone (by decide) (by decide) v
  have l4 : ¬ (ltP <:+: replaceAll gtP ['>'] v) :=
    replaceAll_keeps_absent (by decide) (by decide) (by decide) v l3
  have a4 : ¬ (ampP <:+: replaceAll gtP ['>'] v) :=
    replaceAll_keeps_absent (by decide) (by decide) (by decide) v a3
  have n4 : ¬ (nbspP <:+: replaceAll gtP ['>'] v) :=
    replaceAll_keeps_absent (by decide) (by decide) (by decide) v n3
  generalize hw : replaceAll gtP ['>'] v = w at g4 l4 a4 n4
  have q5 : ¬ (quotP <:+: replaceAll quotP ['"'] w) :=
    replaceAll_gone (by decide) (by decide) w
  have g5 : ¬ (gtP <:+: replaceAll quotP ['"'] w) :=
    replaceAll_keeps_absent (by decide) (by decide) (by decide) w g4
  have l5 : ¬ (ltP <:+: replaceAll quotP ['"'] w) :=
    replaceAll_keeps_absent (by decide) (by decide) (by decide) w l4
  have a5 : ¬ (ampP <:+: replaceAll quotP ['"'] w) :=
    replaceAll_keeps_absent (by decide) (by decide) (by decide) w a4
  have n5 : ¬ (nbspP <:+: replaceAll quotP ['"'] w) :=
    replaceAll_keeps_absent (by decide) (by decide) (by decide) w n4
  generalize hz : replaceAll quotP ['"'] w = z at q5 g5 l5 a5 n5
  have m6 : ¬ (numP <:+: replaceAll numP [squote] z) :=
    replaceAll_gone (by decide) (by decide) z
  have q6 : ¬ (quotP <:+: replaceAll numP [squote] z) :=
    replaceAll_keeps_absent (by decide) (by decide) (by decide) z q5
  have g6 : ¬ (gtP <:+: replaceAll numP [squote] z) :=
    replaceAll_keeps_absent (by decide) (by decide) (by decide) z g5
  have l6 : ¬ (ltP <:+: replaceAll numP [squote] z) :=
    replaceAll_keeps_absent (by decide) (by decide) (by decide) z l5
  have a6 : ¬ (ampP <:+: replaceAll numP [squote] z) :=
    replaceAll_keeps_absent (by decide) (by decide) (by decide) z a5
  have n6 : ¬ (nbspP <:+: replaceAll numP [squote] z) :=
    replaceAll_keeps_absent (by decide) (by decide) (by decide) z n5
  generalize hy : replaceAll numP [squote] z = y at m6 q6 g6 l6 a6 n6
  have hdec : entityDecode x = y := by
    unfold entityDecode
    rw [hu, e2, hv, hw, hz, hy]
  rw [hdec]
  exact entityDecode_fixed n6 a6 l6 g6 q6 m6

/-- C6 counterexample: on the input "&amp;nbsp;" the decoding step is not
idempotent: one pass yields "&nbsp;" and a second pass decodes it again. -/
theorem C6_counterexample :
    entityDecode (entityDecode "&amp;nbsp;".toList) ≠ entityDecode "&amp;nbsp;".toList := by
  decide

/-- Witness for C6_amended at the concrete input "a&lt;b". -/
theorem C6_witness :
    (¬ (ampP <:+: "a&lt;b".toList)) ∧
      entityDecode (entityDecode "a&lt;b".toList) = entityDecode "a&lt;b".toList :=
  ⟨by decide, C6_amended (by decide)⟩

/-- Index of the first ">" in a list, if any. -/
def firstGt : List Char → Option Nat
  | [] => none
  | c :: t => if c = '>' then some 0 else (firstGt t).map (· + 1)

theorem firstGt_none : ∀ {t : List Char}, firstGt t = none → '>' ∉ t := by
  intro t
  induction t with
  | nil => intro _; simp
  | cons c u ih =>
    intro h hm
    by_cases hcg : c = '>'
    · rw [firstGt, if_pos hcg] at h
      exact Option.noConfusion h
    · rw [firstGt, if_neg hcg] at h
      have hu : firstGt u = none := by
        cases hfu : firstGt u with
        | none => rfl
        | some k => rw [hfu] at h; simp at h
      rcases List.mem_cons.mp hm with he | hm2
      · exact hcg he.symm
      · exact ih hu hm2

theorem firstGt_zero : ∀ {t : List Char}, firstGt t = some 0 → ∃ t2, t = '>' :: t2 := by
  intro t h
  cases t with
  | nil => simp [firstGt] at h
  | cons c u =>
    by_cases hcg : c = '>'
    · exact ⟨u, by rw [hcg]⟩
    · rw [firstGt, if_neg hcg] at h
      cases hfu : firstGt u with
      | none => rw [hfu] at h; simp at h
      | some k => rw [hfu] at h; simp at h

/-- Worker for the tag-removal regexp replace.  The Nat argument skips
characters already consumed by a replaced tag, keeping the recursion
structural. -/
def stGo (rep : List Char) : Nat → List Char → List Char
  | 0, [] => []
  | 0, c :: t =>
    if c = '<' then
      match firstGt t with
      | none => c :: t
      | some 0 => c :: stGo rep 0 t
      | some (j + 1) => rep ++ stGo rep (j + 2) t
    else c :: stGo rep 0 t
  | _ + 1, [] => []
  | k + 1, _ :: t => stGo rep k t

/-- Model of the regexp ReplaceAllString that removes every complete tag
(a "<", one or more characters none of which is ">", then ">"), replacing
each match with rep, following leftmost scanning of the Go regexp engine. -/
def stripTagsRepl (rep : List Char) (s : List Char) : List Char := stGo rep 0 s

theorem stGo_skip (rep : List Char) :
    ∀ (s : List Char) (k : Nat), stGo rep k s = stGo rep 0 (s.drop k) := by
  intro s
  induction s with
  | nil => intro k; cases k <;> rfl
  | cons c t ih =>
    intro k
    cases k with
    | zero => rfl
    | succ m => simpa [stGo] using ih m

theorem st_copy {c : Char} (rep : List Char) (t : List Char) (h : c ≠ '<') :
    stripTagsRepl rep (c :: t) = c :: stripTagsRepl rep t := by
  show stGo rep 0 (c :: t) = _
  simp only [stGo]
  rw [if_neg h]
  rfl

theorem st_keep {t : List Char} (rep : List Char) (h : firstGt t = none) :
    stripTagsRepl rep ('<' :: t) = '<' :: t := by
  show stGo rep 0 ('<' :: t) = _
  simp only [stGo]
  rw [if_pos True.intro, h]

theorem st_zero {t : List Char} (rep : List Char) (h : firstGt t = some 0) :
    stripTagsRepl rep ('<' :: t) = '<' :: stripTagsRepl rep t := by
  show stGo rep 0 ('<' :: t) = _
  simp only [stGo]
  rw [if_pos True.intro, h]
  rfl

theorem st_pos {t : List Char} {j : Nat} (rep : List Char) (h : firstGt t = some (j + 1)) :
    stripTagsRepl rep ('<' :: t) = rep ++ stripTagsRepl rep (t.drop (j + 2)) := by
  show stGo rep 0 ('<' :: t) = _
  simp only [stGo]
  rw [if_pos True.intro, h]
  show rep ++ stGo rep (j + 2) t = _
  rw [stGo_skip]
  rfl

theorem stripTags_id (rep : List Char) : ∀ {l : List Char}, '<' ∉ l → stripTagsRepl rep l = l := by
  intro l
  induction l with
  | nil => intro _; rfl
  | cons c t ih =>
    intro h
    have hc : c ≠ '<' := fun he => h (by simp [he])
    rw [st_copy rep t hc, ih (fun hm => h (List.mem_cons_of_mem c hm))]

/-- A complete tag in the sense of the Go pattern: a "<", then at least one
character none of which is ">", then ">". -/
def hasTagPat (l : List Char) : Prop :=
  ∃ a w b, l = a ++ '<' :: (w ++ '>' :: b) ∧ w ≠ [] ∧ '>' ∉ w

theorem hasTagPat_cons {c : Char} {l : List Char} (h : hasTagPat (c :: l)) :
    (c = '<' ∧ ∃ w b, l = w ++ '>' :: b ∧ w ≠ [] ∧ '>' ∉ w) ∨ hasTagPat l := by
  obtain ⟨a, w, b, he, hw, hn⟩ := h
  cases a with
  | nil =>
    have h2 := List.cons_eq_cons.mp (by simpa using he)
    exact Or.inl ⟨h2.1, w, b, h2.2, hw, hn⟩
  | cons x a2 =>
    have h2 := List.cons_eq_cons.mp (by simpa using he)
    exact Or.inr ⟨a2, w, b, h2.2, hw, hn⟩

theorem hasTagPat_gt {l : List Char} (h : hasTagPat l) : '>' ∈ l := by
  obtain ⟨a, w, b, rfl, -, -⟩ := h
  simp

theorem hasTagPat_nil : ¬ hasTagPat [] := by
  intro h
  obtain ⟨a, w, b, he, hw, -⟩ := h
  have hl := congrArg List.length he
  simp only [List.length_nil, List.length_append, List.length_cons] at hl
  omega

theorem stripTags_noTag_aux : ∀ (n : Nat) (l : List Char), l.length ≤ n →
    ¬ hasTagPat (stripTagsRepl [' '] l) := by
  intro n
  induction n with
  | zero =>
    intro l hlen h
    have hl : l = [] := List.eq_nil_of_length_eq_zero (Nat.le_zero.mp hlen)
    subst hl
    exact hasTagPat_nil h
  | succ m ih =>
    intro l hlen h
    cases l with
    | nil => exact hasTagPat_nil h
    | cons c t =>
      by_cases hc : c = '<'
      · subst hc
        cases hgt : firstGt t with
        | none =>
          rw [st_keep [' '] hgt] at h
          rcases hasTagPat_cons h with ⟨-, w, b, hteq, -, -⟩ | h2
          · exact (firstGt_none hgt) (by rw [hteq]; simp)
          · exact (firstGt_none hgt) (hasTagPat_gt h2)
        | some j =>
          cases j with
          | zero =>
            obtain ⟨t2, rfl⟩ := firstGt_zero hgt
            rw [st_zero [' '] hgt, st_copy [' '] t2 (by decide)] at h
            rcases hasTagPat_cons h with ⟨-, w, b, hteq, hw, hn⟩ | h2
            · cases w with
              | nil => exact hw rfl
              | cons x ws =>
                have hx := (List.cons_eq_cons.mp (by simpa using hteq)).1
                exact hn (by rw [← hx]; simp)
            · rcases hasTagPat_cons h2 with ⟨habs, -⟩ | h3
              · exact absurd habs (by decide)
              · exact ih t2 (by simp only [List.length_cons] at hlen; omega) h3
          | succ j2 =>
            rw [st_pos [' '] hgt] at h
            have h2 : hasTagPat (' ' :: stripTagsRepl [' '] (t.drop (j2 + 2))) := by
              simpa using h
            rcases hasTagPat_cons h2 with ⟨habs, -⟩ | h3
            · exact absurd habs (by decide)
            · exact ih (t.drop (j2 + 2))
                (by rw [List.length_drop]; simp only [List.length_cons] at hlen; omega) h3
      · rw [st_copy [' '] t hc] at h
        rcases hasTagPat_cons h with ⟨habs, -⟩ | h2
        · exact hc habs
        · exact ih t (by simp only [List.length_cons] at hlen; omega) h2

/-- Case-insensitive prefix test; pat is given lowercase and the input is
lowered character by character, modelling the (?i) flag on ASCII. -/
def ciHead : List Char → List Char → Bool
  | [], _ => true
  | _ :: _, [] => false
  | p :: ps, c :: cs => p == c.toLower && ciHead ps cs

/-- Index of the first case-insensitive occurrence of pat, if any. -/
def findCIIdx (pat : List Char) : List Char → Option Nat
  | [] => none
  | c :: t => if ciHead pat (c :: t) then some 0 else (findCIIdx pat t).map (· + 1)

/-- The closing tag literal for a block element. -/
def closeOf (tag : List Char) : List Char := '<' :: '/' :: (tag ++ ['>'])

/-- Length of the block match starting at s, if the Go pattern
(?is)<TAG[^>]*>.*?</TAG> matches at this position: the literal "<TAG", the
shortest run of non-">" characters up to ">", then lazily the first
case-insensitive "</TAG>". -/
def tryBlockLen (tag : List Char) (s : List Char) : Option Nat :=
  match s with
  | [] => none
  | c :: r0 =>
    if c == '<' && ciHead tag r0 then
      match firstGt (r0.drop tag.length) with
      | none => none
      | some k =>
        match findCIIdx (closeOf tag) ((r0.drop tag.length).drop (k + 1)) with
        | none => none
        | some j => some (1 + tag.length + k + 1 + j + (closeOf tag).length)
    else none

/-- Worker for removeBlocks with a skip counter for consumed matches. -/
def rbGo (tag : List Char) : Nat → List Char → List Char
  | 0, [] => []
  | 0, c :: t =>
    match tryBlockLen tag (c :: t) with
    | some n => ' ' :: rbGo tag (n - 1) t
    | none => c :: rbGo tag 0 t
  | _ + 1, [] => []
  | k + 1, _ :: t => rbGo tag k t

/-- Model of the regexp replace removing (?is)<TAG[^>]*>.*?</TAG> blocks,
replacing each leftmost non-overlapping match by one space. -/
def removeBlocks (tag : List Char) (s : List Char) : List Char := rbGo tag 0 s

/-- The whitespace class matched by the RE2 escape in the collapse step. -/
def isRE2Space (c : Char) : Bool :=
  c == ' ' || c == '\t' || c == '\n' || c.toNat == 12 || c == '\r'

/-- Worker for collapseWS; the Bool records whether the scanner is inside a
whitespace run whose single replacement space was already emitted. -/
def cwGo : Bool → List Char → List Char
  | _, [] => []
  | inRun, c :: t =>
    if isRE2Space c then
      if inRun then cwGo true t else ' ' :: cwGo true t
    else c :: cwGo false t

/-- Model of the regexp replace collapsing every whitespace run to " ". -/
def collapseWS (s : List Char) : List Char := cwGo false s

/-- Model of extractText, lines 95-125 of src/srv/summarize.go: remove
script, style, nav, footer and header blocks, strip remaining complete
tags, decode entities, collapse whitespace, trim. -/
def extractText (html : List Char) : List Char :=
  trimSpace (collapseWS (entityDecode (stripTagsRepl [' ']
    (removeBlocks "header".toList
      (removeBlocks "footer".toList
        (removeBlocks "nav".toList
          (removeBlocks "style".toList
            (removeBlocks "script".toList html))))))))

/-- Bool test for the property claimed in C5: the list contains "<"
immediately followed by an ASCII letter or "/". -/
def hasBadLt : List Char → Bool
  | [] => false
  | [_] => false
  | a :: b :: t => (a == '<' && (b.isAlpha || b == '/')) || hasBadLt (b :: t)

/-- C5 counterexample: on the input "<a" (an unterminated tag) extractText
returns "<a" unchanged, so its output does contain "<" immediately followed
by a letter, contradicting the claim as stated. -/
theorem C5_counterexample : hasBadLt (extractText "<a".toList) = true := by decide

/-- C5 (amended): the complete-tag-removal step inside extractText leaves no
complete tag, meaning no "<" followed by one or more non-">" characters and
then ">".  The full extractText output can still contain "<" immediately
followed by a letter or "/", because an unterminated tag such as "<a"
survives the tag-removal step, and because entity decoding can reintroduce
"<" from "&lt;". -/
theorem C5_amended (l : List Char) : ¬ hasTagPat (stripTagsRepl [' '] l) :=
  stripTags_noTag_aux l.length l le_rfl

/-- First-some choice, modelling ordered backtracking alternatives. -/
def orElseO (a b : Option (List Char)) : Option (List Char) :=
  match a with
  | some g => some g
  | none => b

theorem orElseO_cases {a b : Option (List Char)} {g : List Char}
    (h : orElseO a b = some g) : a = some g ∨ b = some g := by
  cases a with
  | some x => exact Or.inl (by simpa [orElseO] using h)
  | none => exact Or.inr (by simpa [orElseO] using h)

/-- The quote class of the Go patterns, accepting a double or single quote. -/
def quoteC (c : Char) : Bool := c == '"' || c == squote

/-- The captured group: the maximal run of non-quote characters, which must
be non-empty and followed by a closing quote. -/
def grabGroup (u : List Char) : Option (List Char) :=
  if (u.takeWhile (fun c => !(quoteC c))).length = 0 then none
  else if u.length ≤ (u.takeWhile (fun c => !(quoteC c))).length then none
  else some (u.takeWhile (fun c => !(quoteC c)))

/-- Match the case-insensitive literal content=, a quote, and the captured
group, at position u. -/
def matchContent (u : List Char) : Option (List Char) :=
  if ciHead "content=".toList u then
    match u.drop 8 with
    | [] => none
    | q1 :: r1 => if quoteC q1 then grabGroup r1 else none
  else none

/-- Greedy position search for the content= literal: deeper positions are
tried first, matching the backtracking order of a greedy non-">" run. -/
def searchContentAux : List Char → Option (List Char)
  | [] => none
  | c :: t => orElseO (if c == '>' then none else searchContentAux t) (matchContent (c :: t))

/-- At least one non-">" character, then the content part, greedily. -/
def searchContentEntry : List Char → Option (List Char)
  | [] => none
  | c :: t => if c == '>' then none else searchContentAux t

/-- Match attr quote val quote and then the content part, at position u. -/
def matchAttr (attr val : List Char) (u : List Char) : Option (List Char) :=
  if ciHead attr u then
    match u.drop attr.length with
    | [] => none
    | q1 :: r1 =>
      if quoteC q1 then
        if ciHead val r1 then
          match r1.drop val.length with
          | [] => none
          | q2 :: r2 => if quoteC q2 then searchContentEntry r2 else none
        else none
      else none
  else none

/-- Greedy position search for the attribute literal. -/
def searchAttrAux (attr val : List Char) : List Char → Option (List Char)
  | [] => none
  | c :: t => orElseO (if c == '>' then none else searchAttrAux attr val t) (matchAttr attr val (c :: t))

/-- After the literal character sequence of "<meta": at least one non-">"
character, then the attribute part, greedily. -/
def matchMetaAt (attr val : List Char) : List Char → Option (List Char)
  | [] => none
  | c :: t => if c == '>' then none else searchAttrAux attr val t

/-- Model of FindStringSubmatch for the meta patterns of generateSummary:
leftmost match, returning the captured group of the content attribute. -/
def findMetaContent (attr val : List Char) : List Char → Option (List Char)
  | [] => none
  | c :: t =>
    orElseO
      (if ciHead "<meta".toList (c :: t) then matchMetaAt attr val (t.drop 4) else none)
      (findMetaContent attr val t)

/-- Match the paragraph pattern at a position beginning with a
case-insensitive "<p": skip the non-">" run and its closing ">", then take
the maximal run of non-"<" characters; that group must have 50 to 500
characters and be followed by the case-insensitive "</p>". -/
def matchPAt (s : List Char) : Option (List Char) :=
  match s with
  | c0 :: c1 :: u =>
    if c0 == '<' && c1.toLower == 'p' then
      match u.dropWhile (fun x => !(x == '>')) with
      | [] => none
      | _ :: v =>
        if 50 ≤ (v.takeWhile (fun x => !(x == '<'))).length &&
            (v.takeWhile (fun x => !(x == '<'))).length ≤ 500 &&
            ciHead "</p>".toList (v.drop (v.takeWhile (fun x => !(x == '<'))).length)
        then some (v.takeWhile (fun x => !(x == '<'))) else none
    else none
  | _ => none

/-- Leftmost match of the first-paragraph pattern of generateSummary. -/
def findParagraph : List Char → Option (List Char)
  | [] => none
  | c :: t => orElseO (matchPAt (c :: t)) (findParagraph t)

/-- Model of strings.LastIndexAny for a set of single characters. -/
def lastIndexAny : List Char → List Char → Option Nat
  | [], _ => none
  | c :: t, cs =>
    match lastIndexAny t cs with
    | some i => some (i + 1)
    | none => if cs.contains c then some 0 else none

def nameAttr : List Char := "name=".toList

def descVal : List Char := "description".toList

def propAttr : List Char := "property=".toList

def ogdVal : List Char := "og:description".toList

/-- First source of generateSummary: the meta description tag, trimmed
(lines 130-134 of src/srv/summarize.go). -/
def sumMeta1 (html : List Char) : List Char :=
  match findMetaContent nameAttr descVal html with
  | some g => trimSpace g
  | none => []

/-- Second source: og:description, tried when the first yielded nothing. -/
def sumMeta2 (html : List Char) : List Char :=
  if sumMeta1 html = [] then
    match findMetaContent propAttr ogdVal html with
    | some g => trimSpace g
    | none => []
  else sumMeta1 html

/-- Third source: a first paragraph of 50 to 500 non-"<" characters; the
inner tag strip uses an empty replacement; kept only if still longer than
50 characters after trimming. -/
def sumPara (html : List Char) : List Char :=
  match findParagraph html with
  | some g =>
    if 50 < (trimSpace (stripTagsRepl [] g)).length then trimSpace (stripTagsRepl [] g)
    else []
  | none => []

def sumMeta3 (html : List Char) : List Char :=
  if sumMeta2 html = [] then sumPara html else sumMeta2 html

/-- Fourth source: the first at most 300 characters of the stripped text,
cut back to just after the last sentence-ending character when that lies
beyond position 100. -/
def sumText (text : List Char) : List Char :=
  match lastIndexAny (text.take (min 300 text.length)) ['.', '!', '?'] with
  | some i =>
    if 100 < i then (text.take (min 300 text.length)).take (i + 1)
    else text.take (min 300 text.length)
  | none => text.take (min 300 text.length)

/-- generateSummary before the final length cap. -/
def generateSummaryCore (html text : List Char) : List Char :=
  if sumMeta3 html = [] ∧ 100 < text.length then sumText text else sumMeta3 html

/-- Model of generateSummary, lines 127-177 of src/srv/summarize.go. -/
def generateSummary (html text : List Char) : List Char :=
  if 500 < (generateSummaryCore html text).length then
    (generateSummaryCore html text).take 500 ++ ['.', '.', '.']
  else generateSummaryCore html text

theorem nilIn (l : List Char) : [] <:+: l := ⟨[], l, by simp⟩

theorem grabGroup_in {u g : List Char} (h : grabGroup u = some g) : g <:+: u := by
  unfold grabGroup at h
  by_cases h1 : (u.takeWhile (fun c => !(quoteC c))).length = 0
  · rw [if_pos h1] at h
    exact Option.noConfusion h
  · rw [if_neg h1] at h
    by_cases h2 : u.length ≤ (u.takeWhile (fun c => !(quoteC c))).length
    · rw [if_pos h2] at h
      exact Option.noConfusion h
    · rw [if_neg h2] at h
      have h3 := Option.some.inj h
      exact h3 ▸ subIn (takeWhilePre _ u)

theorem matchContent_in {u g : List Char} (h : matchContent u = some g) : g <:+: u := by
  unfold matchContent at h
  by_cases hc : ciHead "content=".toList u = true
  · rw [if_pos hc] at h
    cases hd : u.drop 8 with
    | nil => rw [hd] at h; exact Option.noConfusion h
    | cons q1 r1 =>
      rw [hd] at h
      replace h : (if quoteC q1 then grabGroup r1 else none) = some g := h
      by_cases hq : quoteC q1 = true
      · rw [if_pos hq] at h
        have h2 : g <:+: r1 := grabGroup_in h
        have h4 : q1 :: r1 <:+ u := by rw [← hd]; exact dropSuf 8 u
        exact inTrans h2 (sufIn (List.IsSuffix.trans ⟨[q1], rfl⟩ h4))
      · rw [if_neg hq] at h; exact Option.noConfusion h
  · rw [if_neg hc] at h; exact Option.noConfusion h

theorem searchContentAux_in : ∀ {u g : List Char}, searchContentAux u = some g → g <:+: u := by
  intro u
  induction u with
  | nil => intro g h; exact Option.noConfusion h
  | cons c t ih =>
    intro g h
    rw [searchContentAux] at h
    rcases orElseO_cases h with h1 | h1
    · by_cases hcg : (c == '>') = true
      · rw [if_pos hcg] at h1; exact Option.noConfusion h1
      · rw [if_neg hcg] at h1
        exact inTail (ih h1)
    · exact matchContent_in h1

theorem searchContentEntry_in {u g : List Char} (h : searchContentEntry u = some g) :
    g <:+: u := by
  cases u with
  | nil => exact Option.noConfusion h
  | cons c t =>
    rw [searchContentEntry] at h
    by_cases hcg : (c == '>') = true
    · rw [if_pos hcg] at h; exact Option.noConfusion h
    · rw [if_neg hcg] at h
      exact inTail (searchContentAux_in h)

theorem matchAttr_in {attr val u g : List Char} (h : matchAttr attr val u = some g) :
    g <:+: u := by
  unfold matchAttr at h
  by_cases h1 : ciHead attr u = true
  · rw [if_pos h1] at h
    cases hd : u.drop attr.length with
    | nil => rw [hd] at h; exact Option.noConfusion h
    | cons q1 r1 =>
      rw [hd] at h
      replace h : (if quoteC q1 then
          (if ciHead val r1 then
            (match r1.drop val.length with
            | [] => none
            | q2 :: r2 => if quoteC q2 then searchContentEntry r2 else none)
          else none)
        else none) = some g := h
      by_cases h2 : quoteC q1 = true
      · rw [if_pos h2] at h
        by_cases h3 : ciHead val r1 = true
        · rw [if_pos h3] at h
          cases hd2 : r1.drop val.length with
          | nil => rw [hd2] at h; exact Option.noConfusion h
          | cons q2 r2 =>
            rw [hd2] at h
            replace h : (if quoteC q2 then searchContentEntry r2 else none) = some g := h
            by_cases h4 : quoteC q2 = true
            · rw [if_pos h4] at h
              have h5 : g <:+: r2 := searchContentEntry_in h
              have h6 : q2 :: r2 <:+ r1 := by rw [← hd2]; exact dropSuf val.length r1
              have h7 : q1 :: r1 <:+ u := by rw [← hd]; exact dropSuf attr.length u
              have h8 : r2 <:+ u :=
                List.IsSuffix.trans ⟨[q2], rfl⟩
                  (List.IsSuffix.trans h6 (List.IsSuffix.trans ⟨[q1], rfl⟩ h7))
              exact inTrans h5 (sufIn h8)
            · rw [if_neg h4] at h; exact Option.noConfusion h
        · rw [if_neg h3] at h; exact Option.noConfusion h
      · rw [if_neg h2] at h; exact Option.noConfusion h
  · rw [if_neg h1] at h; exact Option.noConfusion h

theorem searchAttrAux_in {attr val : List Char} :
    ∀ {u g : List Char}, searchAttrAux attr val u = some g → g <:+: u := by
  intro u
  induction u with
  | nil => intro g h; exact Option.noConfusion h
  | cons c t ih =>
    intro g h
    rw [searchAttrAux] at h
    rcases orElseO_cases h with h1 | h1
    · by_cases hcg : (c == '>') = true
      · rw [if_pos hcg] at h1; exact Option.noConfusion h1
      · rw [if_neg hcg] at h1
        exact inTail (ih h1)
    · exact matchAttr_in h1

theorem matchMetaAt_in {attr val u g : List Char} (h : matchMetaAt attr val u = some g) :
    g <:+: u := by
  cases u with
  | nil => exact Option.noConfusion h
  | cons c t =>
    rw [matchMetaAt] at h
    by_cases hcg : (c == '>') = true
    · rw [if_pos hcg] at h; exact Option.noConfusion h
    · rw [if_neg hcg] at h
      exact inTail (searchAttrAux_in h)

theorem findMetaContent_in {attr val : List Char} :
    ∀ {html g : List Char}, findMetaContent attr val html = some g → g <:+: html := by
  intro html
  induction html with
  | nil => intro g h; exact Option.noConfusion h
  | cons c t ih =>
    intro g h
    rw [findMetaContent] at h
    rcases orElseO_cases h with h1 | h1
    · by_cases h2 : ciHead "<meta".toList (c :: t) = true
      · rw [if_pos h2] at h1
        exact inTail (inTrans (matchMetaAt_in h1) (sufIn (dropSuf 4 t)))
      · rw [if_neg h2] at h1; exact Option.noConfusion h1
    · exact inTail (ih h1)

theorem matchPAt_in {s g : List Char} (h : matchPAt s = some g) :
    g <:+: s ∧ '<' ∉ g := by
  cases s with
  | nil => exact Option.noConfusion h
  | cons c0 s1 =>
    cases s1 with
    | nil => exact Option.noConfusion h
    | cons c1 u =>
      rw [matchPAt] at h
      by_cases h1 : (c0 == '<' && c1.toLower == 'p') = true
      · rw [if_pos h1] at h
        cases hd : u.dropWhile (fun x => !(x == '>')) with
        | nil => rw [hd] at h; exact Option.noConfusion h
        | cons d v =>
          rw [hd] at h
          replace h : (if 50 ≤ (v.takeWhile (fun x => !(x == '<'))).length &&
              (v.takeWhile (fun x => !(x == '<'))).length ≤ 500 &&
              ciHead "</p>".toList (v.drop (v.takeWhile (fun x => !(x == '<'))).length)
            then some (v.takeWhile (fun x => !(x == '<'))) else none) = some g := h
          by_cases h2 : (50 ≤ (v.takeWhile (fun x => !(x == '<'))).length &&
              (v.takeWhile (fun x => !(x == '<'))).length ≤ 500 &&
              ciHead "</p>".toList (v.drop (v.takeWhile (fun x => !(x == '<'))).length)) = true
          · rw [if_pos h2] at h
            have h3 := Option.some.inj h
            constructor
            · have h4 : d :: v <:+ u := by rw [← hd]; exact dropWhileSuf _ u
              have h5 : v <:+ c0 :: c1 :: u :=
                List.IsSuffix.trans ⟨[d], rfl⟩
                  (List.IsSuffix.trans h4 (List.IsSuffix.trans ⟨[c1], rfl⟩ ⟨[c0], rfl⟩))
              exact inTrans (h3 ▸ subIn (takeWhilePre _ v)) (sufIn h5)
            · intro hm
              rw [← h3] at hm
              have h6 := List.mem_takeWhile_imp hm
              simp at h6
          · rw [if_neg h2] at h; exact Option.noConfusion h
      · rw [if_neg h1] at h; exact Option.noConfusion h

theorem findParagraph_in :
    ∀ {html g : List Char}, findParagraph html = some g → g <:+: html ∧ '<' ∉ g := by
  intro html
  induction html with
  | nil => intro g h; exact Option.noConfusion h
  | cons c t ih =>
    intro g h
    rw [findParagraph] at h
    rcases orElseO_cases h with h1 | h1
    · exact matchPAt_in h1
    · obtain ⟨ha, hb⟩ := ih h1
      exact ⟨inTail ha, hb⟩

theorem sumMeta1_in (html : List Char) : sumMeta1 html <:+: html := by
  unfold sumMeta1
  cases hf : findMetaContent nameAttr descVal html with
  | none => exact nilIn html
  | some g => exact inTrans (trimSpaceIn g) (findMetaContent_in hf)

theorem sumMeta2_in (html : List Char) : sumMeta2 html <:+: html := by
  unfold sumMeta2
  by_cases h1 : sumMeta1 html = []
  · rw [if_pos h1]
    cases hf : findMetaContent propAttr ogdVal html with
    | none => exact nilIn html
    | some g => exact inTrans (trimSpaceIn g) (findMetaContent_in hf)
  · rw [if_neg h1]
    exact sumMeta1_in html

theorem sumPara_in (html : List Char) : sumPara html <:+: html := by
  unfold sumPara
  cases hf : findParagraph html with
  | none => exact nilIn html
  | some g =>
    obtain ⟨ha, hb⟩ := findParagraph_in hf
    show (if 50 < (trimSpace (stripTagsRepl [] g)).length then trimSpace (stripTagsRepl [] g)
      else []) <:+: html
    rw [stripTags_id [] hb]
    by_cases h2 : 50 < (trimSpace g).length
    · rw [if_pos h2]
      exact inTrans (trimSpaceIn g) ha
    · rw [if_neg h2]
      exact nilIn html

theorem sumMeta3_in (html : List Char) : sumMeta3 html <:+: html := by
  unfold sumMeta3
  by_cases h1 : sumMeta2 html = []
  · rw [if_pos h1]; exact sumPara_in html
  · rw [if_neg h1]; exact sumMeta2_in html

theorem sumText_in (text : List Char) : sumText text <:+: text := by
  unfold sumText
  cases lastIndexAny (text.take (min 300 text.length)) ['.', '!', '?'] with
  | none => exact subIn (takePre _ text)
  | some i =>
    show (if 100 < i then (text.take (min 300 text.length)).take (i + 1)
      else text.take (min 300 text.length)) <:+: text
    by_cases h1 : 100 < i
    · rw [if_pos h1]
      exact inTrans (subIn (takePre _ _)) (subIn (takePre _ text))
    · rw [if_neg h1]
      exact subIn (takePre _ text)

theorem core_in (html text : List Char) :
    generateSummaryCore html text <:+: html ∨ generateSummaryCore html text <:+: text := by
  unfold generateSummaryCore
  by_cases hc : sumMeta3 html = [] ∧ 100 < text.length
  · rw [if_pos hc]
    exact Or.inr (sumText_in text)
  · rw [if_neg hc]
    exact Or.inl (sumMeta3_in html)

theorem inAppendCases {q a b : List Char} (h : q <:+: a ++ b) :
    q <:+: a ∨ q <:+: b ∨
      ∃ q₁ q₂, q = q₁ ++ q₂ ∧ q₁ ≠ [] ∧ q₂ ≠ [] ∧ q₁ <:+ a ∧ q₂ <+: b := by
  obtain ⟨s, t, hst⟩ := h
  rcases List.append_eq_append_iff.mp hst with ⟨w, hw1, hw2⟩ | ⟨w, hw1, hw2⟩
  · exact Or.inl ⟨s, w, by rw [hw1]⟩
  · rcases List.append_eq_append_iff.mp hw1 with ⟨x, hx1, hx2⟩ | ⟨y, hy1, hy2⟩
    · cases hxe : x with
      | nil =>
        refine Or.inr (Or.inl ⟨[], t, ?_⟩)
        subst hxe
        simp only [List.nil_append] at hx2
        rw [hw2, hx2]
        simp
      | cons x0 xs =>
        cases hwe : w with
        | nil =>
          refine Or.inl ⟨s, [], ?_⟩
          subst hwe
          simp only [List.append_nil] at hx2
          rw [hx1, hx2]
          simp
        | cons w0 ws =>
          refine Or.inr (Or.inr ⟨x, w, hx2, by rw [hxe]; simp, by rw [hwe]; simp,
            ⟨s, hx1.symm⟩, ⟨t, hw2.symm⟩⟩)
    · refine Or.inr (Or.inl ⟨y, t, ?_⟩)
      rw [hw2, hy2]

theorem preHeadDots {q₂ : List Char} (hq2 : q₂ ≠ []) (hpre : q₂ <+: ['.', '.', '.']) :
    '.' ∈ q₂ := by
  cases q₂ with
  | nil => exact absurd rfl hq2
  | cons y ys =>
    obtain ⟨t2, ht⟩ := hpre
    have h2 : y :: (ys ++ t2) = '.' :: ['.', '.'] := by simpa using ht
    have h3 := (List.cons_eq_cons.mp h2).1
    simp [h3]

theorem noMarkAppend {q s : List Char} (hq : q ≠ []) (hdot : ('.') ∉ q)
    (h : ¬ (q <:+: s)) : ¬ (q <:+: s.take 500 ++ ['.', '.', '.']) := by
  intro hcon
  rcases inAppendCases hcon with h1 | h1 | ⟨q₁, q₂, hqeq, hq1, hq2, hsuf, hpre⟩
  · exact h (inTrans h1 (subIn (takePre 500 s)))
  · cases q with
    | nil => exact hq rfl
    | cons x xs =>
      have hx : x ∈ ['.', '.', '.'] := inSub h1 x (by simp)
      have hx2 : x = '.' := by simpa using hx
      exact hdot (by simp [hx2])
  · have hd : '.' ∈ q₂ := preHeadDots hq2 hpre
    exact hdot (by rw [hqeq]; simp [hd])

theorem winDotAppend {s : List Char} (hwin : ¬ ("window".toList <:+: s)) :
    ¬ ("window.".toList <:+: s.take 500 ++ ['.', '.', '.']) := by
  intro hcon
  rcases inAppendCases hcon with h1 | h1 | ⟨q₁, q₂, hqeq, hq1, hq2, hsuf, hpre⟩
  · exact hwin (inTrans (inTrans (subIn (by decide)) h1) (subIn (takePre 500 s)))
  · have h2 := inSub h1 'w' (by decide)
    simp at h2
  · have hall : ∀ x ∈ q₂, ('.') = x := by
      intro x hx
      have hx2 : x ∈ ['.', '.', '.'] := (List.IsPrefix.subset hpre) hx
      have := by simpa using hx2
      exact this.symm
    have hcount : q₂.count ('.') = q₂.length := List.count_eq_length.mpr hall
    have hq2suf : q₂ <:+ "window.".toList := ⟨q₁, hqeq.symm⟩
    have hcle : q₂.count ('.') ≤ ("window.".toList).count ('.') :=
      List.Sublist.count_le (List.IsSuffix.sublist hq2suf) ('.')
    have hc1 : ("window.".toList).count ('.') = 1 := by decide
    have hlen1 : q₂.length = 1 := by
      have hpos : 0 < q₂.length := List.length_pos.mpr hq2
      omega
    have hq2v : q₂ = ['.'] := by
      cases q₂ with
      | nil => simp at hlen1
      | cons y ys =>
        have hy : ('.') = y := hall y (by simp)
        have hys : ys = [] := by
          have := hlen1
          simp at this
          exact this
        rw [← hy, hys]
    have hq1p : q₁ <+: "window.".toList := ⟨q₂, hqeq.symm⟩
    have hq1l : q₁.length = 6 := by
      have h7 : ("window.".toList).length = 7 := by decide
      have hlens := congrArg List.length hqeq
      simp only [List.length_append] at hlens
      omega
    have hq1t := List.prefix_iff_eq_take.mp hq1p
    rw [hq1l] at hq1t
    have hq1v : q₁ = "window".toList := by rw [hq1t]; decide
    rw [hq1v] at hsuf
    exact hwin (inTrans (sufIn hsuf) (subIn (takePre 500 s)))

/-- C2 counterexample: a meta description containing the denylisted code
markers flows into the summary unfiltered; there is no safety net in the
code. -/
theorem C2_counterexample :
    ("function".toList <:+:
      generateSummary "<meta name=\"description\" content=\"function window.\">".toList []) ∧
    ("window.".toList <:+:
      generateSummary "<meta name=\"description\" content=\"function window.\">".toList []) := by
  constructor
  · decide
  · decide

/-- C2 (amended): the summary can contain "function" or "window." only when
the page content does: if neither the html nor the stripped text contains
"function" or "window" as a substring, then the produced summary contains
neither "function" nor "window.".  The code performs no denylist check and
never discards or rebuilds an assembled summary. -/
theorem C2_amended {html text : List Char}
    (h1 : ¬ ("function".toList <:+: html)) (h2 : ¬ ("window".toList <:+: html))
    (h3 : ¬ ("function".toList <:+: text)) (h4 : ¬ ("window".toList <:+: text)) :
    ¬ ("function".toList <:+: generateSummary html text) ∧
      ¬ ("window.".toList <:+: generateSummary html text) := by
  have hcf : ¬ ("function".toList <:+: generateSummaryCore html text) := by
    rcases core_in html text with hc | hc
    · exact fun hx => h1 (inTrans hx hc)
    · exact fun hx => h3 (inTrans hx hc)
  have hcw : ¬ ("window".toList <:+: generateSummaryCore html text) := by
    rcases core_in html text with hc | hc
    · exact fun hx => h2 (inTrans hx hc)
    · exact fun hx => h4 (inTrans hx hc)
  unfold generateSummary
  by_cases h5 : 500 < (generateSummaryCore html text).length
  · rw [if_pos h5]
    exact ⟨noMarkAppend (by decide) (by decide) hcf, winDotAppend hcw⟩
  · rw [if_neg h5]
    constructor
    · exact hcf
    · exact fun hx => hcw (inTrans (subIn (by decide)) hx)

/-- Witness for C2_amended at a concrete marker-free page. -/
theorem C2_witness :
    (¬ ("function".toList <:+: "<i>dog</i>".toList)) ∧
    (¬ ("window".toList <:+: "<i>dog</i>".toList)) ∧
    (¬ ("function".toList <:+: "good dog".toList)) ∧
    (¬ ("window".toList <:+: "good dog".toList)) ∧
    (¬ ("function".toList <:+: generateSummary "<i>dog</i>".toList "good dog".toList) ∧
      ¬ ("window.".toList <:+: generateSummary "<i>dog</i>".toList "good dog".toList)) :=
  ⟨by decide, by decide, by decide, by decide,
    C2_amended (by decide) (by decide) (by decide) (by decide)⟩

/-- C1 counterexample: with empty html and empty stripped text every
extraction source fails and generateSummary returns the empty string, not
the fixed sentence claimed by the specification. -/
theorem C1_counterexample : generateSummary [] [] = [] := by decide

/-- C1 (amended): generateSummary can return the empty string.  Whenever no
meta description matches, no og:description matches, no paragraph matches,
and the stripped text has at most 100 characters, the result is exactly the
empty string; the code contains no terminal fallback sentence. -/
theorem C1_amended {html text : List Char}
    (h1 : findMetaContent nameAttr descVal html = none)
    (h2 : findMetaContent propAttr ogdVal html = none)
    (h3 : findParagraph html = none)
    (h4 : text.length ≤ 100) :
    generateSummary html text = [] := by
  have hm1 : sumMeta1 html = [] := by unfold sumMeta1; rw [h1]
  have hm2 : sumMeta2 html = [] := by unfold sumMeta2; rw [if_pos hm1, h2]
  have hp : sumPara html = [] := by unfold sumPara; rw [h3]
  have hm3 : sumMeta3 html = [] := by unfold sumMeta3; rw [if_pos hm2]; exact hp
  have hcore : generateSummaryCore html text = [] := by
    unfold generateSummaryCore
    rw [if_neg (fun hand => absurd hand.2 (by omega))]
    exact hm3
  unfold generateSummary
  rw [hcore]
  simp

/-- Witness for C1_amended at a concrete page with no usable sources. -/
theorem C1_witness :
    findMetaContent nameAttr descVal "<b>hi</b>".toList = none ∧
    findMetaContent propAttr ogdVal "<b>hi</b>".toList = none ∧
    findParagraph "<b>hi</b>".toList = none ∧
    ("short".toList).length ≤ 100 ∧
    generateSummary "<b>hi</b>".toList "short".toList = [] :=
  ⟨by decide, by decide, by decide, by decide,
    C1_amended (by decide) (by decide) (by decide) (by decide)⟩

/-- C9: the summary returned by generateSummary never exceeds 503
characters; whenever the assembled summary exceeds 500 characters it is cut
to its first 500 characters followed by "...". -/
theorem C9_truncation (html text : List Char) :
    (generateSummary html text).length ≤ 503 ∧
      (500 < (generateSummaryCore html text).length →
        generateSummary html text = (generateSummaryCore html text).take 500 ++ ['.', '.', '.']) := by
  constructor
  · unfold generateSummary
    by_cases h : 500 < (generateSummaryCore html text).length
    · rw [if_pos h, List.length_append, List.length_take]
      have h3 : (['.', '.', '.'] : List Char).length = 3 := by decide
      rw [h3]
      omega
    · rw [if_neg h]
      omega
  · intro h
    unfold generateSummary
    rw [if_pos h]

set_option maxRecDepth 20000

/-- A page whose meta description holds 510 characters, for the C9 witness. -/
def bigHtml : List Char :=
  "<meta name=\"description\" content=\"".toList ++ List.replicate 510 'a' ++ "\">".toList

/-- Witness for the conditional part of C9_truncation at a page whose
assembled summary has 510 characters. -/
theorem C9_witness :
    500 < (generateSummaryCore bigHtml []).length ∧
      generateSummary bigHtml [] = (generateSummaryCore bigHtml []).take 500 ++ ['.', '.', '.'] :=
  ⟨by decide, (C9_truncation bigHtml []).2 (by decide)⟩

/-- Process-wide stop-word set of src/srv/summarize.go, lines 15-41. -/
def stopList : List (List Char) :=
  ["the".toList, "a".toList, "an".toList, "and".toList, "or".toList, "but".toList,
   "in".toList, "on".toList, "at".toList, "to".toList, "for".toList, "of".toList,
   "with".toList, "by".toList, "from".toList, "as".toList, "is".toList, "was".toList,
   "are".toList, "were".toList, "been".toList, "be".toList, "have".toList, "has".toList,
   "had".toList, "do".toList, "does".toList, "did".toList, "will".toList, "would".toList,
   "could".toList, "should".toList, "may".toList, "might".toList, "must".toList,
   "shall".toList, "can".toList, "need".toList, "dare".toList, "ought".toList,
   "used".toList, "this".toList, "that".toList, "these".toList, "those".toList,
   "i".toList, "you".toList, "he".toList, "she".toList, "it".toList, "we".toList,
   "they".toList,
   "what".toList, "which".toList, "who".toList, "whom".toList, "whose".toList,
   "where".toList, "when".toList, "why".toList, "how".toList, "all".toList, "each".toList,
   "every".toList, "both".toList, "few".toList, "more".toList, "most".toList,
   "other".toList,
   "some".toList, "such".toList, "no".toList, "nor".toList, "not".toList, "only".toList,
   "own".toList, "same".toList, "so".toList, "than".toList, "too".toList, "very".toList,
   "just".toList, "also".toList, "now".toList, "here".toList, "there".toList,
   "then".toList,
   "once".toList, "about".toList, "into".toList, "through".toList, "during".toList,
   "before".toList, "after".toList, "above".toList, "below".toList, "between".toList,
   "under".toList, "again".toList, "further".toList, "if".toList, "because".toList,
   "until".toList, "while".toList, "your".toList, "our".toList, "their".toList,
   "my".toList,
   "its".toList, "his".toList, "her".toList, "up".toList, "down".toList, "out".toList,
   "off".toList, "over".toList, "any".toList, "get".toList, "got".toList, "like".toList,
   "make".toList, "made".toList, "new".toList, "one".toList, "two".toList, "first".toList,
   "even".toList, "way".toList, "well".toList, "back".toList, "being".toList,
   "want".toList,
   "use".toList, "using".toList, "click".toList, "page".toList, "website".toList,
   "http".toList, "https".toList, "www".toList, "com".toList, "org".toList, "net".toList]

/-- Letter-or-digit class of the tokenizer (ASCII model of the unicode
letter and number classes used by the Go source). -/
def goAlnum (c : Char) : Bool := c.isAlpha || c.isDigit

/-- Worker for strings.FieldsFunc; acc holds the current field reversed. -/
def ffGo (p : Char → Bool) : List Char → List Char → List (List Char)
  | acc, [] => if acc.isEmpty then [] else [acc.reverse]
  | acc, c :: t =>
    if p c then
      if acc.isEmpty then ffGo p [] t else acc.reverse :: ffGo p [] t
    else ffGo p (c :: acc) t

/-- Model of strings.FieldsFunc: split at separator characters, dropping
empty fields. -/
def fieldsFunc (p : Char → Bool) (l : List Char) : List (List Char) := ffGo p [] l

/-- Tokenizer of extractKeywords: lower-case, then split on any character
that is not a letter or digit. -/
def tokenizeWords (text : List Char) : List (List Char) :=
  fieldsFunc (fun c => !(goAlnum c)) (text.map Char.toLower)

/-- Per-token filter of extractKeywords: after trimming, keep tokens of
length 3 to 30 that are not stop words and not digit-heavy. -/
def keepWord (w : List Char) : Bool :=
  decide (3 ≤ w.length) && decide (w.length ≤ 30) && !(stopList.contains w) &&
  decide ((w.filter Char.isDigit).length ≤ w.length / 2)

def filteredWords (text : List Char) : List (List Char) :=
  ((tokenizeWords text).map trimSpace).filter keepWord

/-- Add one occurrence of w to an association list of counts, preserving
first-seen order of keys. -/
def bump (w : List Char) : List (List Char × Nat) → List (List Char × Nat)
  | [] => [(w, 1)]
  | kc :: t => if kc.1 = w then (kc.1, kc.2 + 1) :: t else kc :: bump w t

/-- The contents of the wordCounts map, as an association list in
first-insertion order. -/
def countsList (ws : List (List Char)) : List (List Char × Nat) :=
  ws.foldl (fun acc w => bump w acc) []

def lookupC (w : List Char) : List (List Char × Nat) → Option Nat
  | [] => none
  | kc :: t => if kc.1 = w then some kc.2 else lookupC w t

/-- Stable insert for descending counts: x goes after every entry whose
count is at least as large. -/
def insertDesc (x : List Char × Nat) : List (List Char × Nat) → List (List Char × Nat)
  | [] => [x]
  | y :: t => if y.2 < x.2 then x :: y :: t else y :: insertDesc x t

/-- Sort by count descending.  Go applies sort.Slice, which is not stable,
to a slice built by iterating a map in unspecified order; an arbitrary
iteration order composed with this stable sort covers every arrangement the
Go code can produce. -/
def sortDesc (l : List (List Char × Nat)) : List (List Char × Nat) :=
  l.foldl (fun acc x => insertDesc x acc) []

/-- Model of extractKeywords, lines 179-232 of src/srv/summarize.go.  The
order parameter is the iteration order of the wordCounts map: Go visits
each key exactly once in unspecified order, so properties are quantified
over all duplicate-free orders. -/
def extractKeywordsWith (order : List (List Char)) (text : List Char) : List (List Char) :=
  ((sortDesc (order.filterMap (fun w =>
    match lookupC w (countsList (filteredWords text)) with
    | some c => if 2 ≤ c then some (w, c) else none
    | none => none))).take 15).map Prod.fst

theorem filterMapKeys_sub (f : List Char → Option (List Char × Nat))
    (hf : ∀ w p, f w = some p → p.1 = w) :
    ∀ order : List (List Char), ((order.filterMap f).map Prod.fst).Sublist order := by
  intro order
  induction order with
  | nil => simp
  | cons o os ih =>
    cases hfo : f o with
    | none =>
      simp only [List.filterMap_cons, hfo]
      exact ih.cons o
    | some p =>
      have hp := hf o p hfo
      simp only [List.filterMap_cons, hfo, List.map_cons, hp]
      exact ih.cons₂ o

theorem insertDesc_perm (x : List Char × Nat) (l : List (List Char × Nat)) :
    insertDesc x l ~ x :: l := by
  induction l with
  | nil => exact List.Perm.refl _
  | cons y t ih =>
    rw [insertDesc]
    by_cases h : y.2 < x.2
    · rw [if_pos h]
    · rw [if_neg h]
      calc y :: insertDesc x t ~ y :: x :: t := List.Perm.cons y ih
        _ ~ x :: y :: t := List.Perm.swap x y t

theorem sortDescAux_perm :
    ∀ (l acc : List (List Char × Nat)),
      l.foldl (fun acc x => insertDesc x acc) acc ~ acc ++ l := by
  intro l
  induction l with
  | nil => intro acc; simp
  | cons x t ih =>
    intro acc
    rw [List.foldl_cons]
    calc List.foldl (fun acc x => insertDesc x acc) (insertDesc x acc) t
        ~ insertDesc x acc ++ t := ih (insertDesc x acc)
      _ ~ (x :: acc) ++ t := List.Perm.append_right t (insertDesc_perm x acc)
      _ ~ acc ++ x :: t := by simpa using (List.perm_middle).symm

theorem sortDesc_perm (l : List (List Char × Nat)) : sortDesc l ~ l := by
  simpa [sortDesc] using sortDescAux_perm l []

theorem lookupC_mem : ∀ {l : List (List Char × Nat)} {w : List Char} {c : Nat},
    lookupC w l = some c → (w, c) ∈ l := by
  intro l
  induction l with
  | nil => intro w c h; exact Option.noConfusion h
  | cons kc t ih =>
    intro w c h
    by_cases hk : kc.1 = w
    · rw [lookupC, if_pos hk] at h
      have h2 : kc.2 = c := Option.some.inj h
      have he : kc = (w, c) := by
        obtain ⟨k1, k2⟩ := kc
        simp only at hk h2
        rw [hk, h2]
      rw [← he]
      exact List.mem_cons_self kc t
    · rw [lookupC, if_neg hk] at h
      exact List.mem_cons_of_mem kc (ih h)

theorem bump_mem : ∀ {l : List (List Char × Nat)} {w x : List Char} {c : Nat},
    (x, c) ∈ bump w l → (∃ c2, (x, c2) ∈ l) ∨ x = w := by
  intro l
  induction l with
  | nil =>
    intro w x c h
    have h2 : (x, c) = (w, 1) := by simpa [bump] using h
    exact Or.inr (congrArg Prod.fst h2)
  | cons kc t ih =>
    intro w x c h
    by_cases hk : kc.1 = w
    · rw [bump, if_pos hk] at h
      rcases List.mem_cons.mp h with heq | hm
      · have hx : x = kc.1 := congrArg Prod.fst heq
        exact Or.inr (hx.trans hk)
      · exact Or.inl ⟨c, List.mem_cons_of_mem kc hm⟩
    · rw [bump, if_neg hk] at h
      rcases List.mem_cons.mp h with heq | hm
      · exact Or.inl ⟨c, by rw [heq]; exact List.mem_cons_self kc t⟩
      · rcases ih hm with ⟨c2, hc2⟩ | hxw
        · exact Or.inl ⟨c2, List.mem_cons_of_mem kc hc2⟩
        · exact Or.inr hxw

theorem countsAux_key : ∀ (ws : List (List Char)) (acc : List (List Char × Nat))
    {x : List Char} {c : Nat}, (x, c) ∈ ws.foldl (fun acc w => bump w acc) acc →
    (∃ c2, (x, c2) ∈ acc) ∨ x ∈ ws := by
  intro ws
  induction ws with
  | nil => intro acc x c h; exact Or.inl ⟨c, h⟩
  | cons v vs ih =>
    intro acc x c h
    rw [List.foldl_cons] at h
    rcases ih (bump v acc) h with ⟨c2, hc2⟩ | hm
    · rcases bump_mem hc2 with ⟨c3, hc3⟩ | hxv
      · exact Or.inl ⟨c3, hc3⟩
      · exact Or.inr (by simp [hxv])
    · exact Or.inr (List.mem_cons_of_mem v hm)

theorem countsList_key {ws : List (List Char)} {x : List Char} {c : Nat}
    (h : (x, c) ∈ countsList ws) : x ∈ ws := by
  rcases countsAux_key ws [] h with ⟨c2, hc2⟩ | hm
  · simp at hc2
  · exact hm

/-- C3 (amended): for every map iteration order without duplicates and for
every text, extractKeywords returns at most 15 entries, with no duplicate
entries, every entry of length between 3 and 30 inclusive, and no entry in
the stop-word set.  The upper length bound in the code is 30, not the 25
stated by the specification. -/
theorem C3_bounds {order : List (List Char)} (text : List Char) (hord : order.Nodup) :
    (extractKeywordsWith order text).length ≤ 15 ∧
    (extractKeywordsWith order text).Nodup ∧
    ∀ w ∈ extractKeywordsWith order text,
      3 ≤ w.length ∧ w.length ≤ 30 ∧ stopList.contains w = false := by
  have hf : ∀ w p, (fun w =>
      match lookupC w (countsList (filteredWords text)) with
      | some c => if 2 ≤ c then some (w, c) else none
      | none => none) w = some p → p.1 = w := by
    intro w p hw
    simp only at hw
    cases hlk : lookupC w (countsList (filteredWords text)) with
    | none => rw [hlk] at hw; exact Option.noConfusion hw
    | some c =>
      rw [hlk] at hw
      replace hw : (if 2 ≤ c then some (w, c) else none) = some p := hw
      by_cases h2 : 2 ≤ c
      · rw [if_pos h2] at hw
        exact congrArg Prod.fst (Option.some.inj hw).symm
      · rw [if_neg h2] at hw
        exact Option.noConfusion hw
  refine ⟨?_, ?_, ?_⟩
  · unfold extractKeywordsWith
    rw [List.length_map, List.length_take]
    omega
  · unfold extractKeywordsWith
    have hkeys := filterMapKeys_sub _ hf order
    have hn1 := List.Nodup.sublist hkeys hord
    have hperm := (sortDesc_perm (order.filterMap (fun w =>
      match lookupC w (countsList (filteredWords text)) with
      | some c => if 2 ≤ c then some (w, c) else none
      | none => none))).symm.map Prod.fst
    have hn2 := hperm.nodup hn1
    rw [List.map_take]
    exact List.Nodup.sublist (List.take_sublist 15 _) hn2
  · intro w hw
    unfold extractKeywordsWith at hw
    obtain ⟨pr, hpr, hpw⟩ := List.mem_map.mp hw
    have hsor : pr ∈ sortDesc (order.filterMap (fun w =>
      match lookupC w (countsList (filteredWords text)) with
      | some c => if 2 ≤ c then some (w, c) else none
      | none => none)) := List.take_subset 15 _ hpr
    have hfr := ((sortDesc_perm _).mem_iff).mp hsor
    obtain ⟨w0, hw0, hfw0⟩ := List.mem_filterMap.mp hfr
    have hkey := hf w0 pr hfw0
    cases hlk : lookupC w0 (countsList (filteredWords text)) with
    | none => rw [hlk] at hfw0; exact Option.noConfusion hfw0
    | some c =>
      rw [hlk] at hfw0
      replace hfw0 : (if 2 ≤ c then some (w0, c) else none) = some pr := hfw0
      by_cases h2 : 2 ≤ c
      · rw [if_pos h2] at hfw0
        have hpr2 : pr = (w0, c) := (Option.some.inj hfw0).symm
        have hwc : (w, c) ∈ countsList (filteredWords text) := by
          have : w = w0 := by rw [← hpw, hpr2]
          rw [this]
          exact lookupC_mem hlk
        have hmemf : w ∈ filteredWords text := countsList_key hwc
        have hkeep : keepWord w = true := (List.mem_filter.mp hmemf).2
        have hks := hkeep
        unfold keepWord at hks
        simp only [Bool.and_eq_true, decide_eq_true_eq, Bool.not_eq_eq_eq_not,
          Bool.not_true] at hks
        exact ⟨hks.1.1.1, hks.1.1.2, by
          have := hks.1.2
          simpa using this⟩
      · rw [if_neg h2] at hfw0
        exact Option.noConfusion hfw0

/-- Witness for C3_bounds at a concrete order and text. -/
theorem C3_witness :
    (["cats".toList] : List (List Char)).Nodup ∧
    ((extractKeywordsWith ["cats".toList] "cats cats".toList).length ≤ 15 ∧
     (extractKeywordsWith ["cats".toList] "cats cats".toList).Nodup ∧
     ∀ w ∈ extractKeywordsWith ["cats".toList] "cats cats".toList,
       3 ≤ w.length ∧ w.length ≤ 30 ∧ stopList.contains w = false) :=
  ⟨by decide, C3_bounds "cats cats".toList (by decide)⟩

/-- C3 counterexample: a 26-character token occurring twice becomes a
keyword of length 26, violating the claimed upper length bound of 25 (the
code allows up to 30). -/
theorem C3_counterexample :
    "abcdefghijklmnopqrstuvwxyz".toList ∈
      extractKeywordsWith ["abcdefghijklmnopqrstuvwxyz".toList]
        "abcdefghijklmnopqrstuvwxyz abcdefghijklmnopqrstuvwxyz".toList ∧
    25 < ("abcdefghijklmnopqrstuvwxyz".toList).length := by
  constructor
  · decide
  · decide

/-- C4: extractKeywords is not deterministic on equal frequency counts.  On
the text "aaa bbb aaa bbb" both surviving tokens have count 2, and the
output order equals the iteration order of the wordCounts map, which the Go
runtime randomises on every run: the two possible iteration orders produce
different keyword lists. -/
theorem C4_tie_order :
    extractKeywordsWith ["aaa".toList, "bbb".toList] "aaa bbb aaa bbb".toList ≠
      extractKeywordsWith ["bbb".toList, "aaa".toList] "aaa bbb aaa bbb".toList := by
  decide

/-- The bytes a response body reader delivers before end of stream or a
read error, and whether a read error then occurs.  analyzeURL never looks
at the flag: the io.ReadAll error is discarded by the source. -/
structure HTTPResponse where
  stream : List Char
  readErr : Bool
deriving DecidableEq

/-- The result record of the pipeline. -/
structure ContentAnalysis where
  summary : List Char
  keywords : List (List Char)
deriving DecidableEq

/-- Model of analyzeURL, lines 66-93 of src/srv/summarize.go.  The outbound
HTTP call is abstracted by its outcome: either the transport error of
client.Do, returned unchanged, or a response whose body is read up to the
500000-byte cap.  The url parameter only fed the request that produced the
outcome; order is the map iteration order used by extractKeywords. -/
def analyzeURL (url : List Char) (order : List (List Char))
    (fetched : Except (List Char) HTTPResponse) : Except (List Char) ContentAnalysis :=
  match fetched with
  | Except.error e => Except.error e
  | Except.ok resp =>
    Except.ok
      { summary := generateSummary (resp.stream.take 500000)
          (extractText (resp.stream.take 500000)),
        keywords := extractKeywordsWith order (extractText (resp.stream.take 500000)) }

/-- C7 counterexample: for a page carrying only og:title "My Video" (no
usable description), the produced summary is not "YouTube video: My Video"
— the code has no URL-based platform fallback. -/
theorem C7_counterexample :
    generateSummary "<meta property=\"og:title\" content=\"My Video\">".toList
        (extractText "<meta property=\"og:title\" content=\"My Video\">".toList) ≠
      "YouTube video: My Video".toList := by
  decide

/-- C7 (amended): the pipeline never inspects the URL after fetching and
builds no platform summary: for a youtube.com/watch URL whose page carries
only og:title "My Video", the analysis succeeds with an empty summary and
no keywords instead of "YouTube video: My Video". -/
theorem C7_amended :
    analyzeURL "https://www.youtube.com/watch?v=abc".toList []
        (Except.ok ⟨"<meta property=\"og:title\" content=\"My Video\">".toList, false⟩) =
      Except.ok ⟨[], []⟩ := by
  show (Except.ok
      { summary := generateSummary ("<meta property=\"og:title\" content=\"My Video\">".toList.take 500000)
          (extractText ("<meta property=\"og:title\" content=\"My Video\">".toList.take 500000)),
        keywords := extractKeywordsWith []
          (extractText ("<meta property=\"og:title\" content=\"My Video\">".toList.take 500000)) } :
    Except (List Char) ContentAnalysis) =
    Except.ok { summary := [], keywords := [] }
  have hsum : generateSummary ("<meta property=\"og:title\" content=\"My Video\">".toList.take 500000)
      (extractText ("<meta property=\"og:title\" content=\"My Video\">".toList.take 500000)) = [] := by
    decide
  have hkw : extractKeywordsWith []
      (extractText ("<meta property=\"og:title\" content=\"My Video\">".toList.take 500000)) = [] := by
    decide
  rw [hsum, hkw]

/-- C8: when the delivered body exceeds 500000 bytes, analyzeURL succeeds —
truncation at the cap is not an error — and the whole analysis is computed
from exactly the first 500000 bytes of the body. -/
theorem C8_cap (url : List Char) (order : List (List Char)) (resp : HTTPResponse)
    (hbig : 500000 < resp.stream.length) :
    analyzeURL url order (Except.ok resp) =
      Except.ok
        { summary := generateSummary (resp.stream.take 500000)
            (extractText (resp.stream.take 500000)),
          keywords := extractKeywordsWith order (extractText (resp.stream.take 500000)) } :=
  rfl

/-- Witness for C8_cap at a body of 500001 bytes. -/
theorem C8_witness :
    500000 < (List.replicate 500001 ' ').length ∧
      analyzeURL [] [] (Except.ok ⟨List.replicate 500001 ' ', false⟩) =
        Except.ok
          { summary := generateSummary ((List.replicate 500001 ' ').take 500000)
              (extractText ((List.replicate 500001 ' ').take 500000)),
            keywords := extractKeywordsWith []
              (extractText ((List.replicate 500001 ' ').take 500000)) } :=
  ⟨by rw [List.length_replicate]; omega,
    C8_cap [] [] ⟨List.replicate 500001 ' ', false⟩ (by rw [List.length_replicate]; omega)⟩

/-- C10: analyzeURL returns an error exactly when the transport call fails,
and then returns that error unchanged; for any received response, whatever
its length and even when a read error occurred mid-body (readErr true), it
returns a ContentAnalysis built from the at most 500000 bytes read. -/
theorem C10_errors :
    (∀ (url : List Char) (order : List (List Char)) (e : List Char),
      analyzeURL url order (Except.error e) = Except.error e) ∧
    (∀ (url : List Char) (order : List (List Char)) (resp : HTTPResponse),
      analyzeURL url order (Except.ok resp) =
        Except.ok
          { summary := generateSummary (resp.stream.take 500000)
              (extractText (resp.stream.take 500000)),
            keywords := extractKeywordsWith order (extractText (resp.stream.take 500000)) }) :=
  ⟨fun _ _ _ => rfl, fun _ _ _ => rfl⟩

end Summarize
